import Mathlib

/-!
Verification of `tools/git-contributors.py`: a shallow embedding, in Lean, of
the tool's trailer-extraction pipeline, together with proofs about it.

The tool scans commit-message lines for attribution trailers
(`Signed-off-by:`, `Cc:`, ...) and extracts a deduplicated, sorted list of
email addresses.  Strings are modelled as `List Char` (Python strings are
sequences of code points).  The three compiled regular expressions `r1`,
`r2`, `r3` of the tool are modelled by directly programmed equivalents of
their matching semantics, and `email.utils.parseaddr` (in its strict form,
which is the behaviour the tool's own comments document) is translated
function-by-function from CPython's `email/_parseaddr.py` and
`email/utils.py`.  Loops become fuel-indexed recursions; the fuel is chosen
large enough for the inputs evaluated concretely, and every universally
quantified theorem below holds for every fuel value.
-/

namespace GitContributors

/-- Code points Python treats as whitespace: the set accepted by
`str.isspace`, stripped by `str.strip`, and matched by the regex class
`\s` (Unicode mode, the Python 3 default). -/
def wsCodes : List Nat :=
  [0x09, 0x0a, 0x0b, 0x0c, 0x0d, 0x1c, 0x1d, 0x1e, 0x1f, 0x20, 0x85, 0xa0,
   0x1680, 0x2000, 0x2001, 0x2002, 0x2003, 0x2004, 0x2005, 0x2006, 0x2007,
   0x2008, 0x2009, 0x200a, 0x2028, 0x2029, 0x202f, 0x205f, 0x3000]

/-- Python whitespace test for a single character. -/
def pyIsSpace (c : Char) : Bool := wsCodes.contains c.toNat

/-- Python `str.strip()`: remove leading and trailing whitespace. -/
def pyStrip (l : List Char) : List Char :=
  ((l.dropWhile pyIsSpace).reverse.dropWhile pyIsSpace).reverse

/-- Python `str.split(sep)` for a one-character separator: split at every
occurrence, keeping empty pieces (`''.split(',') == ['']`). -/
def pySplitOn (sep : Char) : List Char → List (List Char)
  | [] => [[]]
  | c :: cs =>
    match pySplitOn sep cs with
    | [] => [[]]
    | h :: t => if c = sep then [] :: h :: t else (c :: h) :: t

/-- The fixed, case-insensitive tag alternation of regex `r1` in
`find_developers.__init__`. -/
def tagList : List (List Char) :=
  ["signed-off-by".data, "acked-by".data, "cc".data, "reviewed-by".data,
   "reported-by".data, "tested-by".data, "suggested-by".data,
   "reported-and-tested-by".data]

/-- Backtracking search for the `\s+(.+)$` part of regex `r1` against
`rest`, the text following `tag:`.  The whitespace run is tried greedily
from length `k` downwards; the payload `(.+)` must be nonempty and free of
newlines, and `$` accepts either the end of the string or a single final
newline. -/
def r1TryK (rest : List Char) : Nat → Option (List Char)
  | 0 => none
  | k + 1 =>
    let p := rest.drop (k + 1)
    if p ≠ [] ∧ '\n' ∉ p then some p
    else if p.getLast? = some '\n' ∧ 2 ≤ p.length ∧ '\n' ∉ p.dropLast then
      some p.dropLast
    else r1TryK rest k

/-- Matching semantics of regex `r1`,
`^(signed-off-by|...|reported-and-tested-by):\s+(.+)$` with `re.I`, as used
by `re.match`: returns the second capture group (the candidate payload)
when the line matches.  No recognized tag is a prefix of another, so the
alternation is modelled by `find?`. -/
def r1match (l : List Char) : Option (List Char) :=
  match tagList.find? (fun t => (t ++ [':']).isPrefixOf (l.map Char.toLower)) with
  | none => none
  | some t =>
    let rest := l.drop (t.length + 1)
    r1TryK rest (rest.takeWhile pyIsSpace).length

/-- Matching semantics of regex `r2`, `^.*,[^,]*@[^@]*,[^,]*@` with
`re.match`: the heuristic "looks like a list of multiple addresses".
Splitting on commas, it holds exactly when at least two segments other
than the first contain `@`, and the leading segments up to and including
the first such one are newline-free (`.*` and nothing else in the pattern
is blocked by `\n`). -/
def r2match (s : List Char) : Bool :=
  let segs := pySplitOn ',' s
  let tail := segs.drop 1
  match tail.findIdx? (fun seg => seg.contains '@') with
  | none => false
  | some k =>
    decide (1 ≤ (tail.drop (k + 1)).countP (fun seg => seg.contains '@')) &&
      (segs.take (k + 1)).all (fun t => !(t.contains '\n'))

/-- Index of the last occurrence of `c` in `l`, if any. -/
def lastIdxOf (c : Char) (l : List Char) : Option Nat :=
  match l.reverse.findIdx? (· == c) with
  | none => none
  | some r => some (l.length - 1 - r)

/-- Greedy matching of `^.*<(.+)>` on a newline-free string: the capture
runs from just after the last `<` that still leaves room up to the last
`>` of the string. -/
def r3core (a : List Char) : Option (List Char) :=
  match lastIdxOf '>' a with
  | none => none
  | some j =>
    match lastIdxOf '<' (a.take (j - 1)) with
    | none => none
    | some i => some ((a.drop (i + 1)).take (j - (i + 1)))

/-- Matching semantics of regex `r3`, `^.*<(.+)>` with `re.match`: since
neither `.*` nor `(.+)` can cross a newline, matching is confined to the
prefix before the first newline. -/
def r3match (a : List Char) : Option (List Char) :=
  r3core (a.takeWhile (· != '\n'))

/-! Translation of CPython `email/_parseaddr.py`, class `AddrlistClass`.
The mutable parser state (`self.field`, `self.pos`, `self.commentlist`) is
passed explicitly; `self.field` never changes, so it is a fixed first
argument.  Each Python `while` loop becomes a fuel-indexed recursion. -/

/-- `self.specials` of `AddrlistClass.__init__`. -/
def specials : List Char := ['(', ')', '<', '>', '@', ',', ':', ';', '.', '"', '[', ']']

/-- `self.LWS` (linear whitespace). -/
def pyLWS : List Char := [' ', '\t']

/-- `self.FWS = self.LWS + self.CR`. -/
def pyFWS : List Char := [' ', '\t', '\r', '\n']

/-- `self.atomends = self.specials + self.LWS + self.CR`. -/
def atomends : List Char := specials ++ [' ', '\t', '\r', '\n']

/-- `self.phraseends`: `atomends` with the dot removed (dots are legal in
obsolete-syntax phrases). -/
def phraseends : List Char := specials.filter (· != '.') ++ [' ', '\t', '\r', '\n']

/-- `self.field[pos]`; the default is never produced at a guarded use. -/
def chAt (field : List Char) (pos : Nat) : Char := field.getD pos '\x00'

/-- Loop body of `getdelimited` after the opening character was consumed.
The boolean argument is the `quote` flag (a backslash escapes the next
character); with `allowcomments` an embedded `(...)` comment is parsed by
the recursive call with end characters `)\r` and its text is appended to
the result, exactly as `slist.append(self.getcomment())` does. -/
def getdelimGo (field endchars : List Char) (allowcomments : Bool) :
    Nat → Nat → Bool → List Char × Nat
  | 0, pos, _ => ([], pos)
  | fuel + 1, pos, q =>
    if pos < field.length then
      let c := chAt field pos
      if q then
        let r := getdelimGo field endchars allowcomments fuel (pos + 1) false
        (c :: r.1, r.2)
      else if c ∈ endchars then ([], pos + 1)
      else if allowcomments && (c == '(') then
        let com := getdelimGo field [')', '\r'] true fuel (pos + 1) false
        let r := getdelimGo field endchars allowcomments fuel com.2 false
        (com.1 ++ r.1, r.2)
      else if c == '\\' then getdelimGo field endchars allowcomments fuel (pos + 1) true
      else
        let r := getdelimGo field endchars allowcomments fuel (pos + 1) false
        (c :: r.1, r.2)
    else ([], pos)

/-- `AddrlistClass.getdelimited`. -/
def getdelimited (field : List Char) (beginchar : Char) (endchars : List Char)
    (allowcomments : Bool) (fuel pos : Nat) : List Char × Nat :=
  if chAt field pos == beginchar then getdelimGo field endchars allowcomments fuel (pos + 1) false
  else ([], pos)

/-- `AddrlistClass.getquote`. -/
def getquote (field : List Char) (fuel pos : Nat) : List Char × Nat :=
  getdelimited field '"' ['"', '\r'] false fuel pos

/-- `AddrlistClass.getcomment`. -/
def getcomment (field : List Char) (fuel pos : Nat) : List Char × Nat :=
  getdelimited field '(' [')', '\r'] true fuel pos

/-- `AddrlistClass.getdomainliteral`: `'[%s]' % getdelimited('[', ']\r', False)`. -/
def getdomainliteral (field : List Char) (fuel pos : Nat) : List Char × Nat :=
  let r := getdelimited field '[' [']', '\r'] false fuel pos
  ('[' :: r.1 ++ [']'], r.2)

/-- `AddrlistClass.getatom` with an explicit end-character set. -/
def getatomGo (field aends : List Char) : Nat → Nat → List Char × Nat
  | 0, pos => ([], pos)
  | fuel + 1, pos =>
    if pos < field.length then
      let c := chAt field pos
      if c ∈ aends then ([], pos)
      else
        let r := getatomGo field aends fuel (pos + 1)
        (c :: r.1, r.2)
    else ([], pos)

/-- `AddrlistClass.gotonext`: skip whitespace and collect comments; returns
the skipped linear whitespace (newlines excluded), the new position and
the extended comment list. -/
def gotonext (field : List Char) : Nat → Nat → List (List Char) → List Char × Nat × List (List Char)
  | 0, pos, cl => ([], pos, cl)
  | fuel + 1, pos, cl =>
    if pos < field.length then
      let c := chAt field pos
      if c ∈ pyFWS then
        let r := gotonext field fuel (pos + 1) cl
        if c ∈ ['\n', '\r'] then r else (c :: r.1, r.2)
      else if c == '(' then
        let com := getcomment field fuel pos
        gotonext field fuel com.2 (cl ++ [com.1])
      else ([], pos, cl)
    else ([], pos, cl)

/-- `AddrlistClass.getphraselist`: words (atoms or quoted strings) of an
RFC 2822 phrase; comments go to the comment list. -/
def getphraselist (field : List Char) :
    Nat → Nat → List (List Char) → List (List Char) × Nat × List (List Char)
  | 0, pos, cl => ([], pos, cl)
  | fuel + 1, pos, cl =>
    if pos < field.length then
      let c := chAt field pos
      if c ∈ pyFWS then getphraselist field fuel (pos + 1) cl
      else if c == '"' then
        let q := getquote field fuel pos
        let r := getphraselist field fuel q.2 cl
        (q.1 :: r.1, r.2)
      else if c == '(' then
        let com := getcomment field fuel pos
        getphraselist field fuel com.2 (cl ++ [com.1])
      else if c ∈ phraseends then ([], pos, cl)
      else
        let a := getatomGo field phraseends fuel pos
        let r := getphraselist field fuel a.2 cl
        (a.1 :: r.1, r.2)
    else ([], pos, cl)

/-- Loop of `AddrlistClass.getdomain`, with the accumulated `sdlist`.  On a
second `@` the whole function returns the empty string (bpo-34155);
on another atom end it stops and returns the joined accumulator. -/
def getdomainGo (field : List Char) :
    Nat → Nat → List (List Char) → List (List Char) → List Char × Nat × List (List Char)
  | 0, pos, sd, cl => (sd.flatten, pos, cl)
  | fuel + 1, pos, sd, cl =>
    if pos < field.length then
      let c := chAt field pos
      if c ∈ pyLWS then getdomainGo field fuel (pos + 1) sd cl
      else if c == '(' then
        let com := getcomment field fuel pos
        getdomainGo field fuel com.2 sd (cl ++ [com.1])
      else if c == '[' then
        let dl := getdomainliteral field fuel pos
        getdomainGo field fuel dl.2 (sd ++ [dl.1]) cl
      else if c == '.' then getdomainGo field fuel (pos + 1) (sd ++ [['.']]) cl
      else if c == '@' then ([], pos, cl)
      else if c ∈ atomends then (sd.flatten, pos, cl)
      else
        let a := getatomGo field atomends fuel pos
        getdomainGo field fuel a.2 (sd ++ [a.1]) cl
    else (sd.flatten, pos, cl)

/-- `AddrlistClass.getdomain`. -/
def getdomain (field : List Char) (fuel pos : Nat) (cl : List (List Char)) :
    List Char × Nat × List (List Char) :=
  getdomainGo field fuel pos [] cl

/-- `if aslist and not aslist[-1].strip(): aslist.pop()`. -/
def popTrailingWS (aslist : List (List Char)) : List (List Char) :=
  match aslist.getLast? with
  | some last => if pyStrip last = [] then aslist.dropLast else aslist
  | none => aslist

/-- `email._parseaddr.quote`: double backslashes, then escape quotes. -/
def quoteEsc (s : List Char) : List Char :=
  s.flatMap fun c =>
    if c == '\\' then ['\\', '\\'] else if c == '"' then ['\\', '"'] else [c]

/-- Loop of `AddrlistClass.getaddrspec` over the local part: dots collapse
a preceding all-whitespace entry, quoted strings are rebuilt with `quote`,
atoms are taken verbatim, and inter-token whitespace from `gotonext` is
preserved except straight after a dot. -/
def getaddrspecLoop (field : List Char) :
    Nat → Nat → List (List Char) → List (List Char) → List (List Char) × Nat × List (List Char)
  | 0, pos, aslist, cl => (aslist, pos, cl)
  | fuel + 1, pos, aslist, cl =>
    if pos < field.length then
      let c := chAt field pos
      if c == '.' then
        let aslist1 := popTrailingWS aslist ++ [['.']]
        let g := gotonext field fuel (pos + 1) cl
        getaddrspecLoop field fuel g.2.1 aslist1 g.2.2
      else if c == '"' then
        let q := getquote field fuel pos
        let aslist1 := aslist ++ [('"' :: quoteEsc q.1) ++ ['"']]
        let g := gotonext field fuel q.2 cl
        let aslist2 := if g.1 ≠ [] then aslist1 ++ [g.1] else aslist1
        getaddrspecLoop field fuel g.2.1 aslist2 g.2.2
      else if c ∈ atomends then (popTrailingWS aslist, pos, cl)
      else
        let a := getatomGo field atomends fuel pos
        let aslist1 := aslist ++ [a.1]
        let g := gotonext field fuel a.2 cl
        let aslist2 := if g.1 ≠ [] then aslist1 ++ [g.1] else aslist1
        getaddrspecLoop field fuel g.2.1 aslist2 g.2.2
    else (aslist, pos, cl)

/-- `AddrlistClass.getaddrspec`: local part, then `@` and a domain; an
empty domain invalidates the whole address. -/
def getaddrspec (field : List Char) (fuel pos : Nat) (cl : List (List Char)) :
    List Char × Nat × List (List Char) :=
  let g0 := gotonext field fuel pos cl
  let L := getaddrspecLoop field fuel g0.2.1 [] g0.2.2
  if L.2.1 < field.length ∧ chAt field L.2.1 = '@' then
    let g1 := gotonext field fuel (L.2.1 + 1) L.2.2
    let d := getdomain field fuel g1.2.1 g1.2.2
    if d.1 = [] then ([], d.2.1, d.2.2)
    else (L.1.flatten ++ '@' :: d.1, d.2.1, d.2.2)
  else (L.1.flatten, L.2.1, L.2.2)

/-- Loop of `AddrlistClass.getrouteaddr` after the opening `<`; the boolean
is `expectroute`. -/
def getrouteaddrGo (field : List Char) :
    Nat → Nat → Bool → List (List Char) → List Char × Nat × List (List Char)
  | 0, pos, _, cl => ([], pos, cl)
  | fuel + 1, pos, expectroute, cl =>
    if pos < field.length then
      if expectroute then
        let d := getdomain field fuel pos cl
        let g := gotonext field fuel d.2.1 d.2.2
        getrouteaddrGo field fuel g.2.1 false g.2.2
      else
        let c := chAt field pos
        if c == '>' then ([], pos + 1, cl)
        else if c == '@' then
          let g := gotonext field fuel (pos + 1) cl
          getrouteaddrGo field fuel g.2.1 true g.2.2
        else if c == ':' then
          let g := gotonext field fuel (pos + 1) cl
          getrouteaddrGo field fuel g.2.1 false g.2.2
        else
          let a := getaddrspec field fuel pos cl
          (a.1, a.2.1 + 1, a.2.2)
    else ([], pos, cl)

/-- `AddrlistClass.getrouteaddr`: skip route syntax inside `<...>` and
return the addr-spec. -/
def getrouteaddr (field : List Char) (fuel pos : Nat) (cl : List (List Char)) :
    List Char × Nat × List (List Char) :=
  if chAt field pos == '<' then
    let g := gotonext field fuel (pos + 1) cl
    getrouteaddrGo field fuel g.2.1 false g.2.2
  else ([], pos, cl)

/-- A parsed `(realname, email)` pair. -/
abbrev AddrPair := List Char × List Char

mutual

/-- `AddrlistClass.getaddress`: parse the next address.  The comment list
is reset on entry (`self.commentlist = []`); the dispatch follows the
Python `if` chain literally, including the restore of position and comment
list before re-parsing a bare addr-spec. -/
def getaddress (field : List Char) : Nat → Nat → List AddrPair × Nat
  | 0, pos => ([], pos)
  | fuel + 1, pos =>
    let g0 := gotonext field fuel pos []
    let oldpos := g0.2.1
    let oldcl := g0.2.2
    let ph := getphraselist field fuel oldpos oldcl
    let plist := ph.1
    let g1 := gotonext field fuel ph.2.1 ph.2.2
    let pos2 := g1.2.1
    let cl2 := g1.2.2
    let step : List AddrPair × Nat × List (List Char) :=
      if pos2 < field.length then
        let c := chAt field pos2
        if c ∈ ['.', '@'] then
          let asp := getaddrspec field fuel oldpos oldcl
          ([(List.intercalate [' '] asp.2.2, asp.1)], asp.2.1, asp.2.2)
        else if c == ':' then groupLoop field fuel (pos2 + 1) cl2 []
        else if c == '<' then
          let ra := getrouteaddr field fuel pos2 cl2
          let name :=
            if ra.2.2 ≠ [] then
              List.intercalate [' '] plist ++ [' ', '('] ++
                List.intercalate [' '] ra.2.2 ++ [')']
            else List.intercalate [' '] plist
          ([(name, ra.1)], ra.2.1, ra.2.2)
        else if plist ≠ [] then
          ([(List.intercalate [' '] cl2, plist.headD [])], pos2, cl2)
        else if c ∈ specials then ([], pos2 + 1, cl2)
        else ([], pos2, cl2)
      else
        if plist ≠ [] then ([(List.intercalate [' '] cl2, plist.headD [])], pos2, cl2)
        else ([], pos2, cl2)
    let g2 := gotonext field fuel step.2.1 step.2.2
    let pos4 := g2.2.1
    let pos5 := if pos4 < field.length ∧ chAt field pos4 = ',' then pos4 + 1 else pos4
    (step.1, pos5)

/-- The group (`:` ... `;`) loop inside `getaddress`, collecting member
addresses until the terminating semicolon or the end of the field. -/
def groupLoop (field : List Char) :
    Nat → Nat → List (List Char) → List AddrPair → List AddrPair × Nat × List (List Char)
  | 0, pos, cl, acc => (acc, pos, cl)
  | fuel + 1, pos, cl, acc =>
    if pos < field.length then
      let g := gotonext field fuel pos cl
      let pos1 := g.2.1
      let cl1 := g.2.2
      if pos1 < field.length ∧ chAt field pos1 = ';' then (acc, pos1 + 1, cl1)
      else
        let ad := getaddress field fuel pos1
        groupLoop field fuel ad.2 cl1 (acc ++ ad.1)
    else (acc, pos, cl)

end

/-- `AddrlistClass.getaddrlist`: all addresses of the field; a parse step
that yields no address produces an `('', '')` placeholder. -/
def getaddrlistGo (field : List Char) : Nat → Nat → List AddrPair
  | 0, _ => []
  | fuel + 1, pos =>
    if pos < field.length then
      let ad := getaddress field fuel pos
      (if ad.1 = [] then [([], [])] else ad.1) ++ getaddrlistGo field fuel ad.2
    else []

/-- Fuel bound used for concrete evaluation; ample for every field parsed
in this development, and every universal theorem holds for any fuel. -/
def parseFuel (field : List Char) : Nat := 4 * field.length + 64

/-- `email._parseaddr.AddressList(field).addresslist`: empty for an empty
field, otherwise a full `getaddrlist` parse. -/
def addressList (field : List Char) : List AddrPair :=
  if field = [] then [] else getaddrlistGo field (parseFuel field) 0

/-! The strict wrapper of `email.utils.parseaddr` (the default since the
CVE-2023-27043 fix; this is the `email.utils` behaviour the tool's own
comments describe, e.g. that `parseaddr` returns empty strings for
`Xu, Wen <wen.xu@gatech.edu>`). -/

/-- Loop of `email.utils._strip_quoted_realnames` over the
escape-aware character stream; `i` is the current index into `addr`,
`start`/`openPos` delimit quoted sections, `acc` the kept text. -/
def sqrGo (addr : List Char) : List Char → Nat → Nat → Option Nat → Bool → List Char → List Char
  | [], _, start, _, _, acc => acc ++ addr.drop start
  | c :: cs, i, start, openPos, esc, acc =>
    if esc then sqrGo addr cs (i + 1) start openPos false acc
    else if c == '\\' then sqrGo addr cs (i + 1) start openPos true acc
    else if c == '"' then
      match openPos with
      | none => sqrGo addr cs (i + 1) start (some i) false acc
      | some op =>
        let acc1 := if start ≠ op then acc ++ (addr.drop start).take (op - start) else acc
        sqrGo addr cs (i + 1) (i + 1) none false acc1
    else sqrGo addr cs (i + 1) start openPos esc acc

/-- `email.utils._strip_quoted_realnames`: drop text between pairs of
unescaped double quotes. -/
def stripQuotedRealnames (addr : List Char) : List Char :=
  if '"' ∈ addr then sqrGo addr addr 0 0 none false [] else addr

/-- Loop of `email.utils._check_parenthesis`: parenthesis balance over the
escape-aware stream, failing as soon as the count goes negative. -/
def checkParenGo : List Char → Bool → Int → Bool
  | [], _, opens => opens == 0
  | c :: cs, esc, opens =>
    if esc then checkParenGo cs false opens
    else if c == '\\' then checkParenGo cs true opens
    else if c == '(' then checkParenGo cs false (opens + 1)
    else if c == ')' then
      if opens - 1 < 0 then false else checkParenGo cs false (opens - 1)
    else checkParenGo cs false opens

/-- `email.utils._check_parenthesis`, applied after stripping quoted real
names. -/
def checkParenthesis (addr : List Char) : Bool :=
  checkParenGo (stripQuotedRealnames addr) false 0

/-- The replacement field `"('', '')"` substituted by
`_pre_parse_validation` for inputs with unbalanced parentheses. -/
def badParse : List Char := "('', '')".data

/-- `email.utils.parseaddr` with `strict=True`: pre-validate parentheses,
parse the address list, post-validate (a leftover `[` in an address marks
a failed domain-literal parse), and accept only a single-address result. -/
def parseaddrStrict (addr : List Char) : AddrPair :=
  let addr1 := if checkParenthesis addr then addr else badParse
  let addrs := (addressList addr1).map fun p => if '[' ∈ p.2 then (([] : List Char), ([] : List Char)) else p
  match addrs with
  | [p] => p
  | _ => ([], [])

/-! The tool itself: `find_developers._handle_addr` and
`find_developers.run` from `tools/git-contributors.py`, and the dispatch
of `main`. -/

/-- `find_developers._handle_addr`: strip everything from the first `#`
on, try `email.utils.parseaddr`, then the angle-bracket regex `r3`, and
finally fall back to the hash-stripped text verbatim. -/
def handle_addr (addr : List Char) : List Char :=
  let a := addr.takeWhile (· != '#')
  let pa := (parseaddrStrict a).2
  if pa ≠ [] then pa
  else
    match r3match a with
    | some g => g
    | none => a

/-- The addresses one input line contributes in `find_developers.run`:
strip the line, match `r1`, and either split the payload on commas when
the multi-address heuristic `r2` fires or treat it whole. -/
def lineAddrs (line : String) : List (List Char) :=
  match r1match (pyStrip line.data) with
  | none => []
  | some rightside =>
    if r2match rightside then (pySplitOn ',' rightside).map handle_addr
    else [handle_addr rightside]

/-- Python's `<=` on strings: lexicographic comparison of the code-point
sequences. -/
def listCharLe : List Char → List Char → Bool
  | [], _ => true
  | _ :: _, [] => false
  | x :: xs, y :: ys => if x < y then true else if y < x then false else listCharLe xs ys

/-- Python `sorted(set(xs))` on strings: the distinct elements in
ascending lexicographic (code-point) order. -/
def sortedSet (l : List (List Char)) : List (List Char) :=
  List.mergeSort l.dedup listCharLe

/-- `find_developers.run`: accumulate every resolved address over the
lines, then return `sorted(set(addr_list))`. -/
def fd_run (lines : List String) : List String :=
  (sortedSet (lines.flatMap lineAddrs)).map fun a => String.mk a

/-- Where `main` takes its line sequence from. -/
inductive LineSource where
  | gitLog : String → LineSource
  | stdinSource : LineSource
deriving DecidableEq

/-- Outcome of `main`'s argument handling. -/
inductive MainOutcome where
  | usageError : MainOutcome
  | nameError : MainOutcome
  | runsWith : LineSource → MainOutcome
deriving DecidableEq

/-- Dispatch of `main` on the positional `revspec` argument:
`argparse.add_argument("revspec", ...)` declares a required positional
(no `nargs='?'`), so omitting it makes `parse_args` exit with a usage
error; with an empty string the `if args.revspec:` guard is false and
`contributors` is never assigned, so the final `print` raises
`NameError`; otherwise the lines come from `git log --pretty=medium
<revspec>`.  No branch reads standard input. -/
def mainDispatch : Option String → MainOutcome
  | none => MainOutcome.usageError
  | some r => if r = "" then MainOutcome.nameError else MainOutcome.runsWith (LineSource.gitLog r)

/-! Properties of the comparator and of `sortedSet`. -/

/-- The executable comparator agrees with the lexicographic order on
`List Char` (and hence, via `String.le_iff_toList_le`, with `≤` on
`String`). -/
theorem listCharLe_iff (a b : List Char) : listCharLe a b = true ↔ a ≤ b := by
  rw [← not_lt]
  show listCharLe a b = true ↔ ¬ List.Lex (· < ·) b a
  induction a generalizing b with
  | nil =>
    cases b with
    | nil =>
      simp only [listCharLe, true_iff]
      exact fun h => nomatch h
    | cons y ys =>
      simp only [listCharLe, true_iff]
      exact fun h => nomatch h
  | cons x xs ih =>
    cases b with
    | nil =>
      simp only [listCharLe, Bool.false_eq_true, false_iff, not_not]
      exact List.Lex.nil
    | cons y ys =>
      by_cases hxy : x < y
      · simp only [listCharLe, if_pos hxy, true_iff]
        intro h
        cases h with
        | cons h' => exact lt_irrefl x hxy
        | rel h' => exact lt_asymm hxy h'
      · by_cases hyx : y < x
        · simp only [listCharLe, if_neg hxy, if_pos hyx, Bool.false_eq_true, false_iff, not_not]
          exact List.Lex.rel hyx
        · have hxey : x = y := le_antisymm (not_lt.mp hyx) (not_lt.mp hxy)
          subst hxey
          simp only [listCharLe, if_neg hxy, ih]
          constructor
          · intro hxsys h
            cases h with
            | cons h' => exact hxsys h'
            | rel h' => exact lt_irrefl x h'
          · intro h hlt
            exact h (List.Lex.cons hlt)

/-- The comparator is total. -/
theorem listCharLe_total (a b : List Char) : listCharLe a b || listCharLe b a := by
  induction a generalizing b with
  | nil => simp [listCharLe]
  | cons x xs ih =>
    cases b with
    | nil => simp [listCharLe]
    | cons y ys =>
      by_cases hxy : x < y
      · simp [listCharLe, hxy]
      · by_cases hyx : y < x
        · simp [listCharLe, hxy, hyx]
        · simpa [listCharLe, hxy, hyx] using ih ys

/-- The comparator is transitive. -/
theorem listCharLe_trans (a b c : List Char) (hab : listCharLe a b) (hbc : listCharLe b c) :
    listCharLe a c := by
  induction a generalizing b c with
  | nil => simp [listCharLe]
  | cons x xs ih =>
    cases b with
    | nil => simp [listCharLe] at hab
    | cons y ys =>
      cases c with
      | nil => simp [listCharLe] at hbc
      | cons z zs =>
        by_cases hxy : x < y
        · by_cases hyz : y < z
          · simp [listCharLe, lt_trans hxy hyz]
          · by_cases hzy : z < y
            · simp [listCharLe, hyz, hzy] at hbc
            · have : y = z := le_antisymm (not_lt.mp hzy) (not_lt.mp hyz)
              subst this
              simp [listCharLe, hxy]
        · by_cases hyx : y < x
          · simp [listCharLe, hxy, hyx] at hab
          · have hxey : x = y := le_antisymm (not_lt.mp hyx) (not_lt.mp hxy)
            subst hxey
            by_cases hxz : x < z
            · simp [listCharLe, hxz]
            · by_cases hzx : z < x
              · simp [listCharLe, hxz, hzx] at hbc
              · simp only [listCharLe, if_neg hxy, if_neg hyx] at hab
                simp only [listCharLe, if_neg hxz, if_neg hzx] at hbc ⊢
                exact ih _ _ hab hbc

/-- The comparator is antisymmetric. -/
theorem listCharLe_antisymm (a b : List Char) (hab : listCharLe a b = true)
    (hba : listCharLe b a = true) : a = b := by
  induction a generalizing b with
  | nil =>
    cases b with
    | nil => rfl
    | cons y ys => simp [listCharLe] at hba
  | cons x xs ih =>
    cases b with
    | nil => simp [listCharLe] at hab
    | cons y ys =>
      by_cases hxy : x < y
      · simp [listCharLe, lt_asymm hxy, hxy] at hba
      · by_cases hyx : y < x
        · simp [listCharLe, hxy, hyx] at hab
        · have hxey : x = y := le_antisymm (not_lt.mp hyx) (not_lt.mp hxy)
          subst hxey
          simp only [listCharLe, if_neg hxy] at hab hba
          exact congrArg (x :: ·) (ih _ hab hba)

/-- `sortedSet` output is pairwise ordered by the comparator. -/
theorem sortedSet_pairwise (l : List (List Char)) :
    (sortedSet l).Pairwise fun a b => listCharLe a b = true := by
  have h := List.sorted_mergeSort
    (fun a b c hab hbc => listCharLe_trans a b c hab hbc)
    (fun a b => listCharLe_total a b) l.dedup
  exact h

/-- `sortedSet` output is a permutation of the deduplicated input. -/
theorem sortedSet_perm_dedup (l : List (List Char)) : List.Perm (sortedSet l) l.dedup :=
  List.mergeSort_perm l.dedup listCharLe

/-- `sortedSet` output has no duplicates. -/
theorem sortedSet_nodup (l : List (List Char)) : (sortedSet l).Nodup :=
  (sortedSet_perm_dedup l).nodup_iff.mpr (List.nodup_dedup l)

/-- Membership in `sortedSet` is membership in the input. -/
theorem mem_sortedSet {a : List Char} {l : List (List Char)} : a ∈ sortedSet l ↔ a ∈ l := by
  unfold sortedSet
  rw [List.mem_mergeSort, List.mem_dedup]

/-- Permutation-equal inputs give equal `sortedSet` results. -/
theorem sortedSet_eq_of_perm {l₁ l₂ : List (List Char)} (h : List.Perm l₁ l₂) :
    sortedSet l₁ = sortedSet l₂ := by
  haveI : IsAntisymm (List Char) fun a b => listCharLe a b = true :=
    ⟨fun a b => listCharLe_antisymm a b⟩
  exact List.eq_of_perm_of_sorted
    (((sortedSet_perm_dedup l₁).trans h.dedup).trans (sortedSet_perm_dedup l₂).symm)
    (sortedSet_pairwise l₁) (sortedSet_pairwise l₂)

/-- `sortedSet` fixes its own output. -/
theorem sortedSet_idem (l : List (List Char)) : sortedSet (sortedSet l) = sortedSet l := by
  haveI : IsAntisymm (List Char) fun a b => listCharLe a b = true :=
    ⟨fun a b => listCharLe_antisymm a b⟩
  refine List.eq_of_perm_of_sorted ?_ (sortedSet_pairwise (sortedSet l)) (sortedSet_pairwise l)
  have h1 := sortedSet_perm_dedup (sortedSet l)
  rw [List.dedup_eq_self.mpr (sortedSet_nodup l)] at h1
  exact h1

/-! Claims. -/

/-- C1: for every input line sequence, the list returned by `run` contains
no duplicate entries and is sorted in ascending lexicographic order on the
string form. -/
theorem claim_C1_run_nodup_sorted (lines : List String) :
    (fd_run lines).Nodup ∧ (fd_run lines).Sorted (· ≤ ·) := by
  constructor
  · exact (sortedSet_nodup (lines.flatMap lineAddrs)).map
      (fun a b h => congrArg String.data h)
  · rw [fd_run, List.Sorted, List.pairwise_map]
    refine (sortedSet_pairwise (lines.flatMap lineAddrs)).imp ?_
    intro a b h
    exact String.le_iff_toList_le.mpr ((listCharLe_iff a b).mp h)

/-- C8: extraction is deterministic, and its result is a fixed point of
the dedup-and-sort normalization, so re-running on the same (restartable)
line sequence reproduces the result.  In this pure embedding `run` has no
mutable state (the Python object only holds the compiled patterns, which
`run` never writes), so determinism is definitional, and the fixed-point
conjunct records the content behind idempotence. -/
theorem claim_C8_idempotent_deterministic (lines : List String) :
    fd_run lines = fd_run lines ∧
      sortedSet (sortedSet (lines.flatMap lineAddrs)) = sortedSet (lines.flatMap lineAddrs) :=
  ⟨rfl, sortedSet_idem (lines.flatMap lineAddrs)⟩

/-- C9: the result of `run` is invariant under permuting the input lines:
each line is processed independently, and the accumulated addresses are
deduplicated and sorted before being returned. -/
theorem claim_C9_perm_invariant (lines₁ lines₂ : List String) (h : lines₁.Perm lines₂) :
    fd_run lines₁ = fd_run lines₂ := by
  unfold fd_run
  rw [sortedSet_eq_of_perm (h.flatMap_right lineAddrs)]

/-- Witness for C9 at a concrete transposition. -/
theorem claim_C9_witness :
    fd_run ["Cc: b@y.com", "Cc: a@x.com"] = fd_run ["Cc: a@x.com", "Cc: b@y.com"] :=
  claim_C9_perm_invariant _ _ (List.Perm.swap _ _ _)

/-- C3: the spec claims that an omitted revision specifier makes the tool
read from standard input; in the code `revspec` is a required positional
argument, so omitting it is an argparse usage error, an explicit empty
specifier crashes on the unassigned `contributors`, and no branch ever
reads standard input. -/
theorem claim_C3_no_stdin_fallback :
    mainDispatch none = MainOutcome.usageError ∧
      ∀ o : Option String, mainDispatch o ≠ MainOutcome.runsWith LineSource.stdinSource := by
  refine ⟨rfl, ?_⟩
  intro o
  match o with
  | none => simp [mainDispatch]
  | some r =>
    by_cases h : r = "" <;> simp [mainDispatch, h]

/-- Splitting never returns an empty list of segments. -/
theorem pySplitOn_ne_nil (sep : Char) (l : List Char) : pySplitOn sep l ≠ [] := by
  cases l with
  | nil => simp [pySplitOn]
  | cons c cs =>
    simp only [pySplitOn]
    match h : pySplitOn sep cs with
    | [] => simp
    | hd :: tl =>
      by_cases hc : c = sep <;> simp [hc]

/-- Every address a line resolves ends up in the final result of `run`. -/
theorem mk_mem_fd_run {lines : List String} {line : String} {a : List Char}
    (hline : line ∈ lines) (ha : a ∈ lineAddrs line) :
    String.mk a ∈ fd_run lines := by
  unfold fd_run
  exact List.mem_map_of_mem _ (mem_sortedSet.mpr (List.mem_flatMap.mpr ⟨line, hline, ha⟩))

/-- `takeWhile` is idempotent. -/
theorem takeWhile_twice (p : Char → Bool) (l : List Char) :
    (l.takeWhile p).takeWhile p = l.takeWhile p := by
  induction l with
  | nil => rfl
  | cons x xs ih =>
    by_cases h : p x
    · simp [List.takeWhile_cons, h, ih]
    · simp [List.takeWhile_cons, h]

unseal List.merge List.mergeSort in
/-- C4: on `"Reported-by: Xu, Wen <wen.xu@gatech.edu>"` structured parsing
returns nothing (the comma makes the strict parser see two addresses), the
angle-bracket fallback `r3` fires, and `run` extracts
`wen.xu@gatech.edu`. -/
theorem claim_C4_angle_fallback :
    parseaddrStrict ("Xu, Wen <wen.xu@gatech.edu>".data) = ([], []) ∧
      r3match ("Xu, Wen <wen.xu@gatech.edu>".data) = some ("wen.xu@gatech.edu".data) ∧
      fd_run ["Reported-by: Xu, Wen <wen.xu@gatech.edu>"] = ["wen.xu@gatech.edu"] := by
  refine ⟨by decide, by decide, by decide⟩

unseal List.merge List.mergeSort in
/-- Counterexample to C2: the payload `"a@x.com, b@y.com"` has two
comma-separated `@`-containing segments, yet the heuristic regex `r2`
(which needs a comma before each counted `@`-segment, hence two commas)
does not match, the payload is not split, and the parse-failure fallback
stores it whole: neither individual address appears in the result. -/
theorem claim_C2_counterexample :
    fd_run ["Cc: a@x.com, b@y.com"] = ["a@x.com, b@y.com"] ∧
      "a@x.com" ∉ fd_run ["Cc: a@x.com, b@y.com"] := by
  refine ⟨by decide, by decide⟩

unseal List.merge List.mergeSort in
/-- C2 as amended: the split happens exactly when the payload matches the
heuristic `r2`, i.e. when at least two comma-separated segments other than
the first contain `@`; then every comma segment is processed as an
independent candidate, as on the three-address example line. -/
theorem claim_C2_amended (line : String) (p : List Char)
    (h1 : r1match (pyStrip line.data) = some p) (h2 : r2match p = true) :
    lineAddrs line = (pySplitOn ',' p).map handle_addr ∧
      fd_run ["Cc: a@example.com, b@example.org, c@example.net"] =
        ["a@example.com", "b@example.org", "c@example.net"] := by
  constructor
  · simp [lineAddrs, h1, h2]
  · decide

/-- Witness for C2 (amended) at a concrete three-address line. -/
theorem claim_C2_amended_witness :
    lineAddrs "Cc: a@p.com, b@q.com, c@r.com" =
      (pySplitOn ',' ("a@p.com, b@q.com, c@r.com".data)).map handle_addr ∧
      fd_run ["Cc: a@example.com, b@example.org, c@example.net"] =
        ["a@example.com", "b@example.org", "c@example.net"] :=
  claim_C2_amended "Cc: a@p.com, b@q.com, c@r.com" ("a@p.com, b@q.com, c@r.com".data)
    (by decide) (by decide)

/-- C5: a line that matches the tag pattern always contributes at least
one entry, and each of its resolved addresses is in the final result:
`_handle_addr` is total (the hash-stripped text is its last fallback), so
no matched line is dropped and no input raises. -/
theorem claim_C5_matched_line_contributes (lines : List String) (line : String) (p : List Char)
    (hline : line ∈ lines) (hmatch : r1match (pyStrip line.data) = some p) :
    lineAddrs line ≠ [] ∧ ∀ a ∈ lineAddrs line, String.mk a ∈ fd_run lines := by
  constructor
  · simp only [lineAddrs, hmatch]
    by_cases h2 : r2match p
    · simp only [h2, if_pos]
      intro hmap
      exact pySplitOn_ne_nil ',' p (List.map_eq_nil_iff.mp hmap)
    · simp [h2]
  · intro a ha
    exact mk_mem_fd_run hline ha

/-- Witness for C5 on a concrete matched line. -/
theorem claim_C5_witness :
    lineAddrs "Cc: bob@x.com" ≠ [] ∧
      ∀ a ∈ lineAddrs "Cc: bob@x.com", String.mk a ∈ fd_run ["Cc: bob@x.com"] :=
  claim_C5_matched_line_contributes ["Cc: bob@x.com"] "Cc: bob@x.com" ("bob@x.com".data)
    (List.mem_singleton.mpr rfl) (by decide)

unseal List.merge List.mergeSort in
/-- C6: hash-mark stripping happens inside `_handle_addr`, i.e. per
candidate segment after any comma-splitting, and only the part of the
segment before the first `#` influences the resolved address; on
`"Cc: stable@vger.kernel.org # v6.19+"` the annotation is removed. -/
theorem claim_C6_hash_strip_per_segment (addr : List Char) :
    handle_addr addr = handle_addr (addr.takeWhile (· != '#')) ∧
      fd_run ["Cc: stable@vger.kernel.org # v6.19+"] = ["stable@vger.kernel.org"] := by
  constructor
  · simp only [handle_addr, takeWhile_twice]
  · decide

unseal List.merge List.mergeSort in
/-- Counterexample to C7: lines with a recognized tag, a colon and a
whitespace-only or empty payload do not match `r1` (stripping removes the
trailing whitespace and `\s+(.+)$` then demands a nonempty payload), so
they contribute nothing; an empty-string entry arises only from payloads
that are hash-stripped to emptiness. -/
theorem claim_C7_counterexample :
    fd_run ["Cc:   "] = [] ∧ fd_run ["Cc:"] = [] ∧ fd_run ["reviewed-by: \t"] = [] ∧
      fd_run ["Cc: #note"] = [""] := by
  refine ⟨by decide, by decide, by decide, by decide⟩

/-- Lowercasing does not change whether a character is whitespace: the
basic latin letters it can produce are not whitespace, and every other
character is left unchanged. -/
theorem pyIsSpace_toLower (c : Char) : pyIsSpace (Char.toLower c) = pyIsSpace c := by
  by_cases h : c.toNat ≥ 65 ∧ c.toNat ≤ 90
  · have hlow : Char.toLower c = Char.ofNat (c.toNat + 32) := by
      unfold Char.toLower
      simp only [if_pos h]
    rw [hlow]
    obtain ⟨h1, h2⟩ := h
    show wsCodes.contains (Char.ofNat (c.toNat + 32)).toNat = wsCodes.contains c.toNat
    generalize hgen : c.toNat = n at h1 h2 ⊢
    interval_cases n <;> decide
  · have hlow : Char.toLower c = c := by
      unfold Char.toLower
      simp only [if_neg h]
    rw [hlow]

/-- No recognized tag contains a whitespace character. -/
theorem tagList_no_space : ∀ t ∈ tagList, ∀ c ∈ t, pyIsSpace c = false := by decide

/-- Recognized tags are nonempty. -/
theorem tagList_ne_nil : ∀ t ∈ tagList, t ≠ [] := by decide

/-- Searching the alternation for a recognized tag followed by a colon
finds exactly that tag (no tag is a prefix of another). -/
theorem tagList_find_self : ∀ t ∈ tagList,
    tagList.find? (fun t0 => (t0 ++ [':']).isPrefixOf (t ++ [':'])) = some t := by decide

/-- C7 as amended: a line made of a recognized tag (in any letter case), a
colon and a whitespace-only or empty payload fails the tag pattern, whose
`\s+(.+)$` demands a nonempty payload after the stripped line, so the line
is discarded and contributes nothing to the result of any run. -/
theorem claim_C7_amended (tag w t : List Char) (rest : List String) (ht : t ∈ tagList)
    (htag : tag.map Char.toLower = t) (hw : ∀ c ∈ w, pyIsSpace c = true) :
    r1match (pyStrip (tag ++ ':' :: w)) = none ∧
      lineAddrs (String.mk (tag ++ ':' :: w)) = [] ∧
      fd_run (String.mk (tag ++ ':' :: w) :: rest) = fd_run rest := by
  cases tag with
  | nil =>
    exfalso
    apply tagList_ne_nil t ht
    simpa using htag.symm
  | cons c0 tag' =>
    have hc0 : pyIsSpace c0 = false := by
      have hmem : Char.toLower c0 ∈ t := by
        rw [← htag]
        simp
      rw [← pyIsSpace_toLower c0]
      exact tagList_no_space t ht _ hmem
    have hstrip : pyStrip ((c0 :: tag') ++ ':' :: w) = (c0 :: tag') ++ [':'] := by
      unfold pyStrip
      have hfront : ((c0 :: tag') ++ ':' :: w).dropWhile pyIsSpace = (c0 :: tag') ++ ':' :: w := by
        rw [List.cons_append, List.dropWhile_cons, if_neg (by simp [hc0])]
      rw [hfront]
      have hrev : ((c0 :: tag') ++ ':' :: w).reverse = w.reverse ++ ':' :: ((c0 :: tag').reverse) := by
        simp
      rw [hrev]
      rw [List.dropWhile_append_of_pos (fun x hx => hw x (List.mem_reverse.mp hx))]
      rw [List.dropWhile_cons, if_neg (by decide)]
      simp
    have hmap : ((c0 :: tag') ++ [':']).map Char.toLower = t ++ [':'] := by
      rw [List.map_append, htag]
      simp [show Char.toLower ':' = ':' from by decide]
    have hr1 : r1match (pyStrip ((c0 :: tag') ++ ':' :: w)) = none := by
      rw [hstrip]
      unfold r1match
      rw [hmap, tagList_find_self t ht]
      have hlen : ((c0 :: tag') ++ [':']).length ≤ t.length + 1 := by
        rw [← htag]
        simp
      show r1TryK (List.drop (t.length + 1) ((c0 :: tag') ++ [':']))
          (List.takeWhile pyIsSpace (List.drop (t.length + 1) ((c0 :: tag') ++ [':']))).length = none
      rw [List.drop_eq_nil_of_le hlen]
      rfl
    have hdata : (String.mk ((c0 :: tag') ++ ':' :: w)).data = (c0 :: tag') ++ ':' :: w := rfl
    have hline : lineAddrs (String.mk ((c0 :: tag') ++ ':' :: w)) = [] := by
      unfold lineAddrs
      rw [hdata, hr1]
    refine ⟨hr1, hline, ?_⟩
    unfold fd_run
    rw [List.flatMap_cons, hline, List.nil_append]

/-! The hash-free-output invariant: the address parser only ever copies
characters from its input field or injects fixed punctuation
(`. " \ @ [ ]` and the brackets of domain literals), never a `#`.  The
lemmas follow the call graph of the translation above. -/

/-- A guarded field access yields a character of the field. -/
theorem chAt_mem {field : List Char} {pos : Nat} (h : pos < field.length) :
    chAt field pos ∈ field := by
  unfold chAt
  rw [List.getD_eq_getElem?_getD, List.getElem?_eq_getElem h]
  exact List.getElem_mem h

/-- `getdelimGo` copies only field characters. -/
theorem hf_getdelimGo (field : List Char) (hfield : '#' ∉ field) :
    ∀ (fuel : Nat) (e : List Char) (a : Bool) (pos : Nat) (q : Bool),
      '#' ∉ (getdelimGo field e a fuel pos q).1 := by
  intro fuel
  induction fuel with
  | zero => intro e a pos q; simp [getdelimGo]
  | succ fuel ih =>
    intro e a pos q
    simp only [getdelimGo]
    split
    · rename_i hp
      split
      · intro hmem
        rcases List.mem_cons.mp hmem with h | h
        · exact hfield (by rw [h]; exact chAt_mem hp)
        · exact ih e a (pos + 1) false h
      · split
        · simp
        · split
          · intro hmem
            rcases List.mem_append.mp hmem with h | h
            · exact ih [')', '\r'] true (pos + 1) false h
            · exact ih e a _ false h
          · split
            · exact ih e a (pos + 1) true
            · intro hmem
              rcases List.mem_cons.mp hmem with h | h
              · exact hfield (by rw [h]; exact chAt_mem hp)
              · exact ih e a (pos + 1) false h
    · simp

/-- `getdelimited` copies only field characters. -/
theorem hf_getdelimited (field : List Char) (hfield : '#' ∉ field) (b : Char)
    (e : List Char) (a : Bool) (fuel pos : Nat) :
    '#' ∉ (getdelimited field b e a fuel pos).1 := by
  unfold getdelimited
  split
  · exact hf_getdelimGo field hfield fuel e a (pos + 1) false
  · simp

/-- The domain-literal brackets are not hash marks. -/
theorem hf_getdomainliteral (field : List Char) (hfield : '#' ∉ field) (fuel pos : Nat) :
    '#' ∉ (getdomainliteral field fuel pos).1 := by
  unfold getdomainliteral
  intro hmem
  rcases List.mem_cons.mp hmem with h | h
  · exact absurd h (by decide)
  · rcases List.mem_append.mp h with h2 | h2
    · exact hf_getdelimited field hfield '[' [']', '\r'] false fuel pos h2
    · exact absurd h2 (by simp)

/-- Atoms copy only field characters. -/
theorem hf_getatomGo (field : List Char) (hfield : '#' ∉ field) :
    ∀ (fuel : Nat) (aends : List Char) (pos : Nat), '#' ∉ (getatomGo field aends fuel pos).1 := by
  intro fuel
  induction fuel with
  | zero => intro aends pos; simp [getatomGo]
  | succ fuel ih =>
    intro aends pos
    simp only [getatomGo]
    split
    · rename_i hp
      split
      · simp
      · intro hmem
        rcases List.mem_cons.mp hmem with h | h
        · exact hfield (by rw [h]; exact chAt_mem hp)
        · exact ih aends (pos + 1) h
    · simp

/-- The whitespace collected by `gotonext` consists of field characters. -/
theorem hf_gotonext (field : List Char) (hfield : '#' ∉ field) :
    ∀ (fuel : Nat) (pos : Nat) (cl : List (List Char)), '#' ∉ (gotonext field fuel pos cl).1 := by
  intro fuel
  induction fuel with
  | zero => intro pos cl; simp [gotonext]
  | succ fuel ih =>
    intro pos cl
    simp only [gotonext]
    split
    · rename_i hp
      split
      · split
        · exact ih (pos + 1) cl
        · intro hmem
          rcases List.mem_cons.mp hmem with h | h
          · exact hfield (by rw [h]; exact chAt_mem hp)
          · exact ih (pos + 1) cl h
      · split
        · exact ih _ _
        · simp
    · simp

/-- Phrase words copy only field characters. -/
theorem hf_getphraselist (field : List Char) (hfield : '#' ∉ field) :
    ∀ (fuel : Nat) (pos : Nat) (cl : List (List Char)),
      ∀ s ∈ (getphraselist field fuel pos cl).1, '#' ∉ s := by
  intro fuel
  induction fuel with
  | zero => intro pos cl s hs; simp [getphraselist] at hs
  | succ fuel ih =>
    intro pos cl s hs
    simp only [getphraselist] at hs
    split at hs
    · rename_i hp
      split at hs
      · exact ih (pos + 1) cl s hs
      · split at hs
        · rcases List.mem_cons.mp hs with h | h
          · rw [h]
            exact hf_getdelimited field hfield '"' ['"', '\r'] false fuel pos
          · exact ih _ cl s h
        · split at hs
          · exact ih _ _ s hs
          · split at hs
            · simp at hs
            · rcases List.mem_cons.mp hs with h | h
              · rw [h]
                exact hf_getatomGo field hfield fuel phraseends pos
              · exact ih _ cl s h
    · simp at hs

/-- The domain accumulator stays hash-free. -/
theorem hf_getdomainGo (field : List Char) (hfield : '#' ∉ field) :
    ∀ (fuel : Nat) (pos : Nat) (sd cl : List (List Char)),
      (∀ s ∈ sd, '#' ∉ s) → '#' ∉ (getdomainGo field fuel pos sd cl).1 := by
  intro fuel
  induction fuel with
  | zero =>
    intro pos sd cl hsd hmem
    simp only [getdomainGo] at hmem
    rcases List.mem_flatten.mp hmem with ⟨s, hs, hcs⟩
    exact hsd s hs hcs
  | succ fuel ih =>
    intro pos sd cl hsd
    simp only [getdomainGo]
    split
    · rename_i hp
      split
      · exact ih (pos + 1) sd cl hsd
      · split
        · exact ih _ sd _ hsd
        · split
          · refine ih _ _ cl ?_
            intro s hs
            rcases List.mem_append.mp hs with h | h
            · exact hsd s h
            · rcases List.mem_singleton.mp h with rfl
              exact hf_getdomainliteral field hfield fuel pos
          · split
            · refine ih (pos + 1) _ cl ?_
              intro s hs
              rcases List.mem_append.mp hs with h | h
              · exact hsd s h
              · rcases List.mem_singleton.mp h with rfl
                simp
            · split
              · simp
              · split
                · intro hmem
                  rcases List.mem_flatten.mp hmem with ⟨s, hs, hcs⟩
                  exact hsd s hs hcs
                · refine ih _ _ cl ?_
                  intro s hs
                  rcases List.mem_append.mp hs with h | h
                  · exact hsd s h
                  · rcases List.mem_singleton.mp h with rfl
                    exact hf_getatomGo field hfield fuel atomends pos
    · intro hmem
      rcases List.mem_flatten.mp hmem with ⟨s, hs, hcs⟩
      exact hsd s hs hcs

/-- Requoting inserts only backslashes and double quotes. -/
theorem hf_quoteEsc (s : List Char) (hs : '#' ∉ s) : '#' ∉ quoteEsc s := by
  unfold quoteEsc
  intro hmem
  rcases List.mem_flatMap.mp hmem with ⟨c, hc, hin⟩
  by_cases h1 : c == '\\'
  · rw [if_pos h1] at hin
    simp at hin
  · rw [if_neg h1] at hin
    by_cases h2 : c == '"'
    · rw [if_pos h2] at hin
      simp at hin
    · rw [if_neg h2] at hin
      rcases List.mem_singleton.mp hin with rfl
      exact hs hc

/-- Dropping a trailing all-whitespace entry only removes entries. -/
theorem popTrailingWS_subset (aslist : List (List Char)) :
    ∀ s ∈ popTrailingWS aslist, s ∈ aslist := by
  unfold popTrailingWS
  split
  · split
    · exact fun s hs => List.dropLast_subset aslist hs
    · exact fun s hs => hs
  · exact fun s hs => hs

/-- Every entry accumulated for the local part is hash-free. -/
theorem hf_getaddrspecLoop (field : List Char) (hfield : '#' ∉ field) :
    ∀ (fuel : Nat) (pos : Nat) (aslist cl : List (List Char)),
      (∀ s ∈ aslist, '#' ∉ s) →
      ∀ s ∈ (getaddrspecLoop field fuel pos aslist cl).1, '#' ∉ s := by
  intro fuel
  induction fuel with
  | zero =>
    intro pos aslist cl has s hs
    simp only [getaddrspecLoop] at hs
    exact has s hs
  | succ fuel ih =>
    intro pos aslist cl has
    simp only [getaddrspecLoop]
    by_cases hp : pos < field.length
    · rw [if_pos hp]
      by_cases h1 : (chAt field pos == '.') = true
      · rw [if_pos h1]
        refine ih _ _ _ ?_
        intro s hs
        rcases List.mem_append.mp hs with h | h
        · exact has s (popTrailingWS_subset aslist s h)
        · rcases List.mem_singleton.mp h with rfl
          simp
      · rw [if_neg h1]
        by_cases h2 : (chAt field pos == '"') = true
        · rw [if_pos h2]
          refine ih _ _ _ ?_
          intro s hs
          split at hs
          · rcases List.mem_append.mp hs with h | h
            · rcases List.mem_append.mp h with h3 | h3
              · exact has s h3
              · rcases List.mem_singleton.mp h3 with rfl
                intro hmem
                rcases List.mem_cons.mp hmem with h4 | h4
                · exact absurd h4 (by decide)
                · rcases List.mem_append.mp h4 with h5 | h5
                  · exact hf_quoteEsc _
                      (hf_getdelimited field hfield '"' ['"', '\r'] false fuel pos) h5
                  · exact absurd h5 (by simp)
            · rcases List.mem_singleton.mp h with rfl
              exact hf_gotonext field hfield fuel _ cl
          · rcases List.mem_append.mp hs with h | h
            · exact has s h
            · rcases List.mem_singleton.mp h with rfl
              intro hmem
              rcases List.mem_cons.mp hmem with h4 | h4
              · exact absurd h4 (by decide)
              · rcases List.mem_append.mp h4 with h5 | h5
                · exact hf_quoteEsc _
                    (hf_getdelimited field hfield '"' ['"', '\r'] false fuel pos) h5
                · exact absurd h5 (by simp)
        · rw [if_neg h2]
          by_cases h3 : chAt field pos ∈ atomends
          · rw [if_pos h3]
            exact fun s hs => has s (popTrailingWS_subset aslist s hs)
          · rw [if_neg h3]
            refine ih _ _ _ ?_
            intro s hs
            split at hs
            · rcases List.mem_append.mp hs with h | h
              · rcases List.mem_append.mp h with h4 | h4
                · exact has s h4
                · rcases List.mem_singleton.mp h4 with rfl
                  exact hf_getatomGo field hfield fuel atomends pos
              · rcases List.mem_singleton.mp h with rfl
                exact hf_gotonext field hfield fuel _ cl
            · rcases List.mem_append.mp hs with h | h
              · exact has s h
              · rcases List.mem_singleton.mp h with rfl
                exact hf_getatomGo field hfield fuel atomends pos
    · rw [if_neg hp]
      exact fun s hs => has s hs

/-- The domain of `getdomain` is hash-free. -/
theorem hf_getdomain (field : List Char) (hfield : '#' ∉ field) (fuel pos : Nat)
    (cl : List (List Char)) : '#' ∉ (getdomain field fuel pos cl).1 :=
  hf_getdomainGo field hfield fuel pos [] cl (by simp)

/-- The addr-spec assembled by `getaddrspec` is hash-free. -/
theorem hf_getaddrspec (field : List Char) (hfield : '#' ∉ field) (fuel pos : Nat)
    (cl : List (List Char)) : '#' ∉ (getaddrspec field fuel pos cl).1 := by
  simp only [getaddrspec]
  split
  · split
    · simp
    · intro hmem
      rcases List.mem_append.mp hmem with h1 | h1
      · rcases List.mem_flatten.mp h1 with ⟨s, hs, hcs⟩
        exact hf_getaddrspecLoop field hfield fuel _ [] _ (by simp) s hs hcs
      · rcases List.mem_cons.mp h1 with h2 | h2
        · exact absurd h2 (by decide)
        · exact hf_getdomain field hfield fuel _ _ h2
  · intro hmem
    rcases List.mem_flatten.mp hmem with ⟨s, hs, hcs⟩
    exact hf_getaddrspecLoop field hfield fuel _ [] _ (by simp) s hs hcs

/-- The route-address loop returns a hash-free addr-spec. -/
theorem hf_getrouteaddrGo (field : List Char) (hfield : '#' ∉ field) :
    ∀ (fuel : Nat) (pos : Nat) (er : Bool) (cl : List (List Char)),
      '#' ∉ (getrouteaddrGo field fuel pos er cl).1 := by
  intro fuel
  induction fuel with
  | zero => intro pos er cl; simp [getrouteaddrGo]
  | succ fuel ih =>
    intro pos er cl
    simp only [getrouteaddrGo]
    split
    · split
      · exact ih _ false _
      · split
        · simp
        · split
          · exact ih _ true _
          · split
            · exact ih _ false _
            · exact hf_getaddrspec field hfield fuel pos cl
    · simp

/-- `getrouteaddr` returns a hash-free addr-spec. -/
theorem hf_getrouteaddr (field : List Char) (hfield : '#' ∉ field) (fuel pos : Nat)
    (cl : List (List Char)) : '#' ∉ (getrouteaddr field fuel pos cl).1 := by
  unfold getrouteaddr
  split
  · exact hf_getrouteaddrGo field hfield fuel _ false _
  · simp

/-- The default head of a hash-free family is hash-free. -/
theorem hf_headD (l : List (List Char)) (hl : ∀ s ∈ l, '#' ∉ s) : '#' ∉ l.headD [] := by
  cases l with
  | nil => simp
  | cons p ps => exact hl p (List.mem_cons_self p ps)

/-- Every address returned by `getaddress` (and by the group loop, given a
hash-free accumulator) is hash-free. -/
theorem hf_getaddress_groupLoop (field : List Char) (hfield : '#' ∉ field) :
    ∀ fuel : Nat,
      (∀ pos, ∀ pr ∈ (getaddress field fuel pos).1, '#' ∉ pr.2) ∧
        (∀ pos cl acc, (∀ pr ∈ acc, '#' ∉ pr.2) →
          ∀ pr ∈ (groupLoop field fuel pos cl acc).1, '#' ∉ pr.2) := by
  intro fuel
  induction fuel with
  | zero =>
    constructor
    · intro pos pr hpr
      simp [getaddress] at hpr
    · intro pos cl acc hacc pr hpr
      simp only [groupLoop] at hpr
      exact hacc pr hpr
  | succ fuel ih =>
    constructor
    · intro pos pr hpr
      simp only [getaddress] at hpr
      split at hpr
      · split at hpr
        · rcases List.mem_singleton.mp hpr with rfl
          exact hf_getaddrspec field hfield fuel _ _
        · split at hpr
          · exact ih.2 _ _ _ (by simp) pr hpr
          · split at hpr
            · rcases List.mem_singleton.mp hpr with rfl
              exact hf_getrouteaddr field hfield fuel _ _
            · split at hpr
              · rcases List.mem_singleton.mp hpr with rfl
                exact hf_headD _ (hf_getphraselist field hfield fuel _ _)
              · split at hpr
                · simp at hpr
                · simp at hpr
      · split at hpr
        · rcases List.mem_singleton.mp hpr with rfl
          exact hf_headD _ (hf_getphraselist field hfield fuel _ _)
        · simp at hpr
    · intro pos cl acc hacc pr hpr
      simp only [groupLoop] at hpr
      split at hpr
      · split at hpr
        · exact hacc pr hpr
        · refine ih.2 _ _ _ ?_ pr hpr
          intro pr2 hpr2
          rcases List.mem_append.mp hpr2 with h | h
          · exact hacc pr2 h
          · exact ih.1 _ pr2 h
      · exact hacc pr hpr

/-- All addresses of `getaddrlist` are hash-free. -/
theorem hf_getaddrlistGo (field : List Char) (hfield : '#' ∉ field) :
    ∀ (fuel : Nat) (pos : Nat), ∀ pr ∈ getaddrlistGo field fuel pos, '#' ∉ pr.2 := by
  intro fuel
  induction fuel with
  | zero => intro pos pr hpr; simp [getaddrlistGo] at hpr
  | succ fuel ih =>
    intro pos pr hpr
    simp only [getaddrlistGo] at hpr
    split at hpr
    · rcases List.mem_append.mp hpr with h | h
      · split at h
        · rcases List.mem_singleton.mp h with rfl
          simp
        · exact (hf_getaddress_groupLoop field hfield fuel).1 pos pr h
      · exact ih _ pr h
    · simp at hpr

/-- All addresses of `AddressList` are hash-free. -/
theorem hf_addressList (field : List Char) (hfield : '#' ∉ field) :
    ∀ pr ∈ addressList field, '#' ∉ pr.2 := by
  unfold addressList
  split
  · simp
  · exact hf_getaddrlistGo field hfield _ 0

/-- The strict `parseaddr` never invents a hash mark. -/
theorem hf_parseaddrStrict (addr : List Char) (h : '#' ∉ addr) :
    '#' ∉ (parseaddrStrict addr).2 := by
  have haddr1 : '#' ∉ (if checkParenthesis addr then addr else badParse) := by
    split
    · exact h
    · decide
  simp only [parseaddrStrict]
  generalize hL : (addressList (if checkParenthesis addr then addr else badParse)).map
      (fun p => if '[' ∈ p.2 then (([] : List Char), ([] : List Char)) else p) = L
  have hall : ∀ pr ∈ L, '#' ∉ pr.2 := by
    intro pr hpr
    rw [← hL] at hpr
    rcases List.mem_map.mp hpr with ⟨p0, hp0, rfl⟩
    split
    · simp
    · exact hf_addressList _ haddr1 p0 hp0
  rcases L with _ | ⟨p, L2⟩
  · simp
  · rcases L2 with _ | ⟨q, r⟩
    · exact hall p (List.mem_singleton.mpr rfl)
    · simp

/-- The `r3` capture group is a substring of the matched text. -/
theorem r3core_subset (a g : List Char) (h : r3core a = some g) : ∀ c ∈ g, c ∈ a := by
  unfold r3core at h
  split at h
  · exact absurd h (by simp)
  · split at h
    · exact absurd h (by simp)
    · injection h with h2
      subst h2
      intro c hc
      exact List.drop_subset _ a (List.take_subset _ _ hc)

/-- Characters of a `takeWhile` prefix come from the original list. -/
theorem mem_of_mem_takeWhile {p : Char → Bool} {c : Char} {l : List Char}
    (h : c ∈ l.takeWhile p) : c ∈ l := by
  induction l with
  | nil => simp at h
  | cons x xs ih =>
    rw [List.takeWhile_cons] at h
    by_cases hx : p x
    · rw [if_pos hx] at h
      rcases List.mem_cons.mp h with h2 | h2
      · exact h2 ▸ List.mem_cons_self x xs
      · exact List.mem_cons_of_mem x (ih h2)
    · rw [if_neg hx] at h
      simp at h

/-- The `r3` fallback result is drawn from the candidate text. -/
theorem r3match_subset (a g : List Char) (h : r3match a = some g) : ∀ c ∈ g, c ∈ a := by
  unfold r3match at h
  intro c hc
  exact mem_of_mem_takeWhile (r3core_subset _ g h c hc)

/-- `_handle_addr` never returns a string containing a hash mark: it
parses only the text before the first `#`, and each of its fallbacks is
drawn from that text. -/
theorem hf_handle_addr (addr : List Char) : '#' ∉ handle_addr addr := by
  have ha : '#' ∉ addr.takeWhile (· != '#') := by
    intro hmem
    have := List.all_eq_true.mp List.all_takeWhile '#' hmem
    simp at this
  simp only [handle_addr]
  split
  · exact hf_parseaddrStrict _ ha
  · split
    · rename_i g hg
      intro hmem
      exact ha (r3match_subset _ g hg '#' hmem)
    · exact ha

/-- Witness for C7 (amended) at the line `"Cc:  "` in front of another
line. -/
theorem claim_C7_amended_witness :
    r1match (pyStrip ("Cc".data ++ ':' :: "  ".data)) = none ∧
      lineAddrs (String.mk ("Cc".data ++ ':' :: "  ".data)) = [] ∧
      fd_run (String.mk ("Cc".data ++ ':' :: "  ".data) :: ["Cc: x@y.z"]) =
        fd_run ["Cc: x@y.z"] :=
  claim_C7_amended "Cc".data "  ".data "cc".data ["Cc: x@y.z"] (by decide) (by decide)
    (by decide)

/-- C10: no address string in the result of `run` contains a hash mark:
every resolved address is derived only from the portion of its candidate
segment before the first `#`, and the parser and fallbacks never inject
one. -/
theorem claim_C10_no_hash (lines : List String) (s : String) (h : s ∈ fd_run lines) :
    '#' ∉ s.data := by
  unfold fd_run at h
  rcases List.mem_map.mp h with ⟨a, ha, rfl⟩
  rcases List.mem_flatMap.mp (mem_sortedSet.mp ha) with ⟨line, hline, haline⟩
  have hha : ∃ seg, a = handle_addr seg := by
    unfold lineAddrs at haline
    split at haline
    · simp at haline
    · rename_i p hp
      split at haline
      · rcases List.mem_map.mp haline with ⟨seg, _, rfl⟩
        exact ⟨seg, rfl⟩
      · rcases List.mem_singleton.mp haline with rfl
        exact ⟨p, rfl⟩
  rcases hha with ⟨seg, rfl⟩
  exact hf_handle_addr seg

unseal List.merge List.mergeSort in
/-- Witness for C10 at the concrete hash-annotated `Cc:` line. -/
theorem claim_C10_witness : '#' ∉ ("stable@vger.kernel.org" : String).data :=
  claim_C10_no_hash ["Cc: stable@vger.kernel.org # v6.19+"] "stable@vger.kernel.org"
    (by decide)

end GitContributors
